import Mathlib

/-
Verification of the artifact-pipeline specification against the source of
`smart_agent_v2.py` (and the behaviourally identical `smart_agent.py`).

The source operations are embedded shallowly:

* The three Extractor operations (`_extract_section`, `_extract_json`,
  `_extract_code`) are single Python regular expressions applied with
  `re.search`.  Each regex here is compiled by hand into an equivalent
  left-to-right scan over `List Char`: `re.search` tries every start
  position from the left and at each position applies the pattern with
  greedy matching.  The derivations of the per-position matchers from the
  concrete patterns are documented at each matcher below.

* `_store_in_memex` / `_get_memex_content` interact with the external
  `memex` process and the file system.  The external store is modelled as
  an oracle (`StoreEnv`) giving the `CompletedProcess` result of each
  command; the mutable agent state (`self.node_map`, plus the existence of
  the staging file `temp.txt`) is threaded explicitly.  Python's
  `try/finally` is modelled by computing the body's result-and-state and
  then applying the `finally` cleanup to the state on every path; a raised
  exception is an `Except.error` carrying the message.

Python-specific details that matter here: `\s` on the ASCII characters used
is `[ \t\n\r\x0b\x0c]`, `str.strip()` removes those characters from both
ends, and `re.DOTALL` only changes the meaning of `.`, which none of the
patterns contain.  Section names / language tags are treated as literal
text (the program only ever passes plain words).
-/

/-- The backtick character (spelled via its code point). -/
def btk : Char := Char.ofNat 96

/-- The opening curly brace character. -/
def obr : Char := Char.ofNat 123

/-- The closing curly brace character. -/
def cbr : Char := Char.ofNat 125

/-- Three backticks: a markdown fence delimiter. -/
def tbt : List Char := [btk, btk, btk]

/-- Python `\s` on the ASCII range: space, tab, newline, carriage return,
vertical tab, form feed. -/
def isPySpace (c : Char) : Bool :=
  c = ' ' || c = '\t' || c = '\n' || c = '\r' || c = Char.ofNat 11 || c = Char.ofNat 12

/-- Lowercase hexadecimal digit, the character class `[0-9a-f]` used by the
node-id patterns. -/
def isHexLower (c : Char) : Bool :=
  ('0' ≤ c && c ≤ '9') || ('a' ≤ c && c ≤ 'f')

/-- `listStartsWith s p` holds when `p` is an initial segment of `s`. -/
def listStartsWith : List Char → List Char → Bool
  | _, [] => true
  | [], _ :: _ => false
  | a :: s, b :: p => a = b && listStartsWith s p

/-- `re.search` semantics: try the per-position matcher `m` at every start
position from the left, returning the first success. -/
def scanFirst (m : List Char → Option (List Char)) : List Char → Option (List Char)
  | [] => m []
  | a :: t =>
    match m (a :: t) with
    | some g => some g
    | none => scanFirst m t

/-- Python `str.strip()`: drop `\s` characters from both ends. -/
def pyStrip (s : List Char) : List Char :=
  ((s.dropWhile isPySpace).reverse.dropWhile isPySpace).reverse

/-
`_extract_section` (smart_agent_v2.py lines 23-29):

    pattern = "# " + section_name + "\\s+([^#]+)"
    match = re.search(pattern, content, re.DOTALL)
    if match: return match.group(1).strip()
    return ""

At a given start position the pattern requires the literal `"# " + name`,
then `\s+` (at least one whitespace character), then `([^#]+)` (at least
one non-`#` character).  Writing `r` for the text after the literal, such a
split `r = w ++ g ++ rest` with `w` nonempty whitespace and `g` nonempty
`#`-free exists iff `r` begins with a whitespace character followed by one
more character that is not `#` (the one-character `w` always works then).
Because the greedy/backtracking choice of the split only moves whitespace
between the end of `w` and the start of `g`, and the result is `strip`ped,
`match.group(1).strip()` equals `strip` of the maximal `#`-free run at the
start of `r`.
-/

/-- Guard of the section matcher: the text after `"# " ++ name` must start
with a whitespace character followed by a character other than `#`. -/
def sectionCondB : List Char → Bool
  | a :: b :: _ => isPySpace a && b ≠ '#'
  | _ => false

/-- Per-position matcher for the `_extract_section` regex; returns the
maximal `#`-free run standing for `\s+([^#]+)` (stripped by the caller). -/
def sectionM (name : List Char) (s : List Char) : Option (List Char) :=
  if listStartsWith s ('#' :: ' ' :: name) then
    if sectionCondB (List.drop (name.length + 2) s) then
      some (List.takeWhile (fun ch => ch ≠ '#') (List.drop (name.length + 2) s))
    else none
  else none

/-- Embedding of `_extract_section`. -/
def extract_section (content section_name : String) : String :=
  match scanFirst (sectionM section_name.data) content.data with
  | some g => ⟨pyStrip g⟩
  | none => ""

/-
`_extract_json` (smart_agent_v2.py lines 31-38):

    section = self._extract_section(content, section_name)
    match = re.search(r'\{[^}]+\}', section, re.DOTALL)
    if match: return match.group(0)
    return the two-character brace pair

At a start position the pattern requires `{`, then at least one non-`}`
character, then `}`.  So a position matches iff it holds `{`, the next
character is not `}`, and some `}` occurs later; the greedy group is the
maximal `}`-free run after the `{`, and `group(0)` re-attaches the braces.
-/

/-- Per-position matcher for the `_extract_json` regex `\x7b[^\x7d]+\x7d`. -/
def jsonM (s : List Char) : Option (List Char) :=
  match s with
  | c0 :: t =>
    if c0 = obr then
      if List.takeWhile (fun ch => ch ≠ cbr) t ≠ [] ∧
          List.dropWhile (fun ch => ch ≠ cbr) t ≠ [] then
        some (obr :: (List.takeWhile (fun ch => ch ≠ cbr) t ++ [cbr]))
      else none
    else none
  | [] => none

/-- Embedding of `_extract_json`. -/
def extract_json (content section_name : String) : String :=
  match scanFirst jsonM (extract_section content section_name).data with
  | some g => ⟨g⟩
  | none => "\x7b\x7d"

/-
`_extract_code` (smart_agent_v2.py lines 40-46):

    pattern = "```" + language + "\\s*\\n([^`]+)\\n```"
    match = re.search(pattern, content, re.DOTALL)
    if match: return match.group(1).strip()
    return content

At a start position the pattern requires the literal three backticks plus
the tag, then `\s*\n` — i.e. the characters before the first newline of
the remainder `r` must all be whitespace and a newline must exist — then a
nonempty backtick-free group, then the literal `"\n" ++ three backticks`.
Writing `t` for the text after the consumed newline, the group must end
exactly before the first backtick of `t` (the group cannot contain one),
so the match succeeds iff `takeWhile (· ≠ backtick) t` ends with a newline,
has length ≥ 2, and is followed by three backticks; the group is that run
without its final newline.  As with sections, moving trailing whitespace
of `\s*` into the group changes nothing after `strip`. -/

/-- Part of the code-fence matcher handling `([^`]+)\n```` against the text
`t` that follows the consumed newline: the maximal backtick-free run must
end with a newline, contain at least one more character, and be followed
by the closing three backticks; the group is that run without its final
newline. -/
def fenceTail (t : List Char) : Option (List Char) :=
  if (List.takeWhile (fun ch => ch ≠ btk) t).getLast? = some '\n' ∧
      2 ≤ (List.takeWhile (fun ch => ch ≠ btk) t).length ∧
      listStartsWith (List.dropWhile (fun ch => ch ≠ btk) t) tbt = true then
    some (List.takeWhile (fun ch => ch ≠ btk) t).dropLast
  else none

/-- Body part of the code-fence matcher, applied to the text `r` that
follows the literal fence-plus-tag: `\s*\n` requires every character
before the first newline to be whitespace (and a newline to exist), then
`fenceTail` takes over. -/
def tryFence (r : List Char) : Option (List Char) :=
  if (List.takeWhile (fun ch => ch ≠ '\n') r).all isPySpace then
    match List.dropWhile (fun ch => ch ≠ '\n') r with
    | [] => none
    | _ :: t => fenceTail t
  else none

/-- Per-position matcher for the `_extract_code` regex. -/
def codeM (l : List Char) (s : List Char) : Option (List Char) :=
  if listStartsWith s (tbt ++ l) then tryFence (List.drop (tbt ++ l).length s)
  else none

/-- Embedding of `_extract_code`. -/
def extract_code (content language : String) : String :=
  match scanFirst (codeM language.data) content.data with
  | some g => ⟨pyStrip g⟩
  | none => content

/-
Spec-side definitions.  These follow the specification's words, not the
source, and exist only to be compared with the embeddings above.
-/

/-- Helper for `extract_section_spec`: split into lines (at `'\n'`). -/
def splitLinesGo (cur : List Char) : List Char → List (List Char)
  | [] => [cur.reverse]
  | ch :: t => if ch = '\n' then cur.reverse :: splitLinesGo [] t else splitLinesGo (ch :: cur) t

/-- Helper for `extract_section_spec`: the lines after the first line that
begins with the given heading prefix, or `none` if no line does. -/
def findHeadingSpec (pat : List Char) : List (List Char) → Option (List (List Char))
  | [] => none
  | l :: t => if listStartsWith l pat then some t else findHeadingSpec pat t

/-- Written from the spec's words (§4.1 / claim C2): locate the first line
beginning with the heading marker `"# "` followed by the heading name, and
return all following text up to (not including) the next line that begins
with a heading marker of the same kind, trimmed; empty text if the heading
is not found. -/
def extract_section_spec (content section_name : String) : String :=
  match findHeadingSpec ('#' :: ' ' :: section_name.data) (splitLinesGo [] content.data) with
  | none => ""
  | some rest =>
    ⟨pyStrip (List.intercalate ['\n']
      (List.takeWhile (fun l => !(listStartsWith l ['#', ' '])) rest))⟩

/-- Helper: split `s` at the first occurrence of the substring `pat`,
returning the part before it and the part after it. -/
def splitAtSubGo (pat : List Char) (acc : List Char) : List Char → Option (List Char × List Char)
  | [] => if listStartsWith [] pat then some (acc.reverse, []) else none
  | a :: t =>
    if listStartsWith (a :: t) pat then some (acc.reverse, List.drop pat.length (a :: t))
    else splitAtSubGo pat (a :: acc) t

/-- Split at the first occurrence of a substring. -/
def splitAtSub (s pat : List Char) : Option (List Char × List Char) :=
  splitAtSubGo pat [] s

/-- Written from the spec's words (§4.1 / claim C3): the text strictly
between the first opening fence declaring the language tag and its closing
fence (the next three backticks), trimmed; the whole content if there is
no such fence or it is never closed. -/
def extract_code_spec (content language : String) : String :=
  match splitAtSub content.data (tbt ++ language.data) with
  | none => content
  | some (_, r) =>
    match splitAtSub r tbt with
    | none => content
    | some (b, _) => ⟨pyStrip b⟩

/-- The body of the first fenced block for the tag: the text between the
first occurrence of the opening fence and the next three backticks
(spec-side notion, used to state claim C9). -/
def firstBlockBody (content language : String) : Option String :=
  match splitAtSub content.data (tbt ++ language.data) with
  | none => none
  | some (_, r) =>
    match splitAtSub r tbt with
    | none => none
    | some (b, _) => some ⟨b⟩

/-
The store model.

`StoreResult` is the visible outcome of one external `memex` invocation
(`subprocess.run(..., capture_output=True, text=True)`), and `StoreEnv` is
the oracle giving the store's response to each command used by the
operations under study: `memex add temp.txt` (as a function of the staged
content), `memex status`, and `memex cat <id>`.
-/

/-- Outcome of one external store invocation. -/
structure StoreResult where
  returncode : Int
  stdout : String
  stderr : String
deriving DecidableEq

/-- Oracle for the external store's responses. -/
structure StoreEnv where
  add : String → StoreResult
  status : StoreResult
  cat : String → StoreResult

/-- The agent's mutable state: `self.node_map` (a Python dict, kept here as
an insertion-ordered association list) and whether the staging file
`temp.txt` currently exists. -/
structure AgentState where
  node_map : List (String × String)
  tempExists : Bool
deriving DecidableEq

/-- The state after `__init__`: empty `node_map`, no staging file. -/
def agentInit : AgentState := ⟨[], false⟩

/-- Python dict assignment `m[k] = v`: overwrite the binding in place if
the key exists, else append. -/
def updateA (mp : List (String × String)) (k v : String) : List (String × String) :=
  match mp with
  | [] => [(k, v)]
  | (k0, v0) :: t => if k0 = k then (k0, v) :: t else (k0, v0) :: updateA t k v

/-- Python dict lookup (`k in m` / `m[k]`). -/
def lookupA (mp : List (String × String)) (k : String) : Option String :=
  match mp with
  | [] => none
  | (k0, v0) :: t => if k0 = k then some v0 else lookupA t k

/-- Per-position matcher for the id patterns `Added node: ([0-9a-f]+)` and
`Node ID: ([0-9a-f]+)`: the literal prefix followed by a nonempty maximal
run of lowercase hex digits. -/
def idM (pat : List Char) (s : List Char) : Option (List Char) :=
  if listStartsWith s pat then
    if List.takeWhile isHexLower (List.drop pat.length s) = [] then none
    else some (List.takeWhile isHexLower (List.drop pat.length s))
  else none

/-- Embedding of `re.search(r'Added node: ([0-9a-f]+)', out)`. -/
def searchAddedNode (out : String) : Option String :=
  (scanFirst (idM ("Added node: ".data)) out.data).map (fun g => ⟨g⟩)

/-- Embedding of `re.search(r'Node ID: ([0-9a-f]+)', out)`. -/
def searchNodeId (out : String) : Option String :=
  (scanFirst (idM ("Node ID: ".data)) out.data).map (fun g => ⟨g⟩)

/-- The `try` body of `_store_in_memex` (smart_agent_v2.py lines 252-275):
write the content to `temp.txt`, run `memex add temp.txt`, raise on
non-zero exit, parse the node id from stdout (falling back to
`memex status` output), raise if no id is found, record
`node_map[description] = node_id` and return the id. -/
def store_in_memex_body (env : StoreEnv) (st : AgentState) (content description : String) :
    Except String String × AgentState :=
  let st1 : AgentState := { st with tempExists := true }
  let result := env.add content
  if result.returncode ≠ 0 then
    (Except.error ("Failed to add to memex: " ++ result.stderr), st1)
  else
    let node1 := searchAddedNode result.stdout
    let node2 :=
      match node1 with
      | some s => some s
      | none =>
        if env.status.returncode = 0 then searchNodeId env.status.stdout else none
    match node2 with
    | none => (Except.error "No Node ID found in output", st1)
    | some node_id =>
      (Except.ok node_id, { st1 with node_map := updateA st1.node_map description node_id })

/-- Embedding of `_store_in_memex`, including the `finally` block that
removes `temp.txt` (if present) on every exit path, normal or raising.
(`smart_agent.py` lines 151-192 only adds a print-and-reraise `except`
clause, which does not change this behaviour.) -/
def store_in_memex (env : StoreEnv) (st : AgentState) (content description : String) :
    Except String String × AgentState :=
  let p := store_in_memex_body env st content description
  (p.1, { p.2 with tempExists := false })

/-- Embedding of `_get_memex_content` (smart_agent_v2.py lines 281-288):
return `""` when the description was never stored; otherwise run
`memex cat <id>` and return its stdout on exit 0, `""` on non-zero exit.
The function never raises. (`smart_agent.py` lines 194-207 additionally
prints warnings, with the same return values.) -/
def get_memex_content (env : StoreEnv) (st : AgentState) (description : String) : String :=
  match lookupA st.node_map description with
  | none => ""
  | some node_id =>
    if (env.cat node_id).returncode = 0 then (env.cat node_id).stdout else ""

/-- Written from the spec's words (§4.2 / claim C6): `fetch` fails with
`StoreInvocationError` on non-zero exit of the read command, and on
success returns the command's stdout verbatim. -/
def fetch_spec (env : StoreEnv) (node_id : String) : Except String String :=
  if (env.cat node_id).returncode = 0 then Except.ok (env.cat node_id).stdout
  else Except.error "StoreInvocationError"

/-- One run-level operation on the registry (claim C10). -/
inductive AgentOp where
  | store (content description : String)
  | resolve (description : String)

/-- Run a sequence of operations from a state; a raising `store` aborts the
run (the exception propagates), leaving the state it produced. -/
def runOps (env : StoreEnv) (st : AgentState) : List AgentOp → AgentState
  | [] => st
  | AgentOp.resolve _ :: rest => runOps env st rest
  | AgentOp.store c d :: rest =>
    match store_in_memex env st c d with
    | (Except.ok _, st1) => runOps env st1 rest
    | (Except.error _, st1) => st1

/-- Well-formedness of the registry map (claim C10): every recorded value
is a nonempty string of lowercase hexadecimal characters. -/
def NodeMapOK (mp : List (String × String)) : Prop :=
  ∀ p ∈ mp, p.2 ≠ "" ∧ p.2.data.all isHexLower = true

/-- Declarative description of a section-heading match of the
`_extract_section` regex at position `i` of `c` (used to state claim C2's
amended form). -/
def sectionHitB (c name : List Char) (i : ℕ) : Bool :=
  listStartsWith (List.drop i c) ('#' :: ' ' :: name) &&
    sectionCondB (List.drop (i + (name.length + 2)) c)

/-- Declarative description of a well-formed fenced-block match of the
`_extract_code` regex at position `i` of `c`: the opening fence with the
tag, whitespace, a newline, a nonempty backtick-free body, a newline and
the closing fence (used to state claims C3 and C9). -/
def CodeMatchAt (c l : List Char) (i : ℕ) : Prop :=
  ∃ w g rest, List.drop i c = (tbt ++ l) ++ (w ++ '\n' :: (g ++ '\n' :: (tbt ++ rest))) ∧
    w.all isPySpace = true ∧ g ≠ [] ∧ g.all (fun ch => ch ≠ btk) = true

/-- Concrete store oracle for exercising duplicate stores: the store
answers `add` with distinct ids for the two contents used. -/
def envC4 : StoreEnv :=
  { add := fun c => if c = "A" then ⟨0, "Added node: aa", ""⟩ else ⟨0, "Added node: bb", ""⟩,
    status := ⟨1, "", ""⟩,
    cat := fun _ => ⟨1, "", ""⟩ }

/-- Concrete store oracle whose read command fails (non-zero exit) while
still printing to stdout. -/
def envC6 : StoreEnv :=
  { add := fun _ => ⟨1, "", ""⟩, status := ⟨1, "", ""⟩, cat := fun _ => ⟨1, "S", "boom"⟩ }

/-- Concrete store oracle whose read command succeeds. -/
def envC6b : StoreEnv :=
  { add := fun _ => ⟨1, "", ""⟩, status := ⟨1, "", ""⟩, cat := fun _ => ⟨0, "S", ""⟩ }

/-- Concrete store oracle that echoes the stored content back from `cat`
for the id it reported from `add`. -/
def envC8 : StoreEnv :=
  { add := fun _ => ⟨0, "Added node: ab", ""⟩, status := ⟨1, "", ""⟩,
    cat := fun i => if i = "ab" then ⟨0, "hello", ""⟩ else ⟨1, "", ""⟩ }

/-- Concrete store oracle for the registry-invariant run. -/
def envC10 : StoreEnv :=
  { add := fun _ => ⟨0, "Added node: 0f3a", ""⟩, status := ⟨0, "Node ID: 77", ""⟩,
    cat := fun _ => ⟨0, "", ""⟩ }

/-
Supporting lemmas.
-/

theorem listStartsWith_iff (p : List Char) : ∀ s,
    listStartsWith s p = true ↔ ∃ u, s = p ++ u := by
  induction p with
  | nil => intro s; simp [listStartsWith]
  | cons b p ih =>
    intro s
    cases s with
    | nil => simp [listStartsWith]
    | cons a s =>
      simp only [listStartsWith, Bool.and_eq_true, decide_eq_true_eq, ih, List.cons_append,
        List.cons.injEq]
      constructor
      · rintro ⟨rfl, u, rfl⟩; exact ⟨u, rfl, rfl⟩
      · rintro ⟨u, rfl, rfl⟩; exact ⟨rfl, u, rfl⟩

theorem listStartsWith_append (p u : List Char) : listStartsWith (p ++ u) p = true :=
  (listStartsWith_iff p (p ++ u)).2 ⟨u, rfl⟩

theorem listStartsWith_nil_false (b : Char) (p : List Char) :
    listStartsWith [] (b :: p) = false := rfl

theorem listStartsWith_long_false (p : List Char) (hp : p ≠ []) :
    ∀ (l : List Char) (j : ℕ), l.length ≤ j → listStartsWith (List.drop j l) p = false := by
  intro l j hj
  rw [List.drop_eq_nil_iff.2 hj]
  cases p with
  | nil => exact absurd rfl hp
  | cons b p => rfl

theorem scanFirst_none_of_all (m : List Char → Option (List Char)) : ∀ s,
    (∀ i, m (List.drop i s) = none) → scanFirst m s = none := by
  intro s
  induction s with
  | nil => intro h; simpa [scanFirst] using h 0
  | cons a t ih =>
    intro h
    have h0 : m (a :: t) = none := h 0
    simp only [scanFirst, h0]
    exact ih (fun i => by simpa [List.drop_succ_cons] using h (i + 1))

theorem scanFirst_some_of_first (m : List Char → Option (List Char)) : ∀ (i : ℕ) (s : List Char)
    (g : List Char), (∀ j, j < i → m (List.drop j s) = none) → m (List.drop i s) = some g →
    scanFirst m s = some g := by
  intro i
  induction i with
  | zero =>
    intro s g _ hi
    cases s with
    | nil => simpa [scanFirst] using hi
    | cons a t => simp only [List.drop_zero] at hi; simp [scanFirst, hi]
  | succ i ih =>
    intro s g hlt hi
    cases s with
    | nil =>
      simp only [List.drop_nil] at hi
      simpa [scanFirst] using hi
    | cons a t =>
      have h0 : m (a :: t) = none := hlt 0 (Nat.succ_pos i)
      simp only [scanFirst, h0]
      exact ih t g (fun j hj => by simpa [List.drop_succ_cons] using hlt (j + 1) (by omega))
        (by simpa [List.drop_succ_cons] using hi)

theorem scanFirst_some_imp (m : List Char → Option (List Char)) : ∀ (s g : List Char),
    scanFirst m s = some g → ∃ i, m (List.drop i s) = some g := by
  intro s
  induction s with
  | nil => intro g h; exact ⟨0, by simpa [scanFirst] using h⟩
  | cons a t ih =>
    intro g h
    simp only [scanFirst] at h
    cases hm : m (a :: t) with
    | some g0 => rw [hm] at h; exact ⟨0, by simpa using hm.trans h⟩
    | none =>
      rw [hm] at h
      obtain ⟨i, hi⟩ := ih g h
      exact ⟨i + 1, by simpa [List.drop_succ_cons] using hi⟩

theorem scanFirst_prop (m : List Char → Option (List Char)) (P : List Char → Prop)
    (hm : ∀ s g, m s = some g → P g) : ∀ (s g : List Char), scanFirst m s = some g → P g := by
  intro s
  induction s with
  | nil => intro g h; exact hm [] g (by simpa [scanFirst] using h)
  | cons a t ih =>
    intro g h
    simp only [scanFirst] at h
    cases hx : m (a :: t) with
    | some g0 => rw [hx] at h; exact hm (a :: t) g (hx.trans h)
    | none => rw [hx] at h; exact ih g h

theorem takeWhile_append_of_all (p : Char → Bool) : ∀ (xs ys : List Char),
    (∀ a ∈ xs, p a = true) → (xs ++ ys).takeWhile p = xs ++ ys.takeWhile p := by
  intro xs ys h
  induction xs with
  | nil => simp
  | cons a t ih =>
    have ha : p a = true := h a (List.mem_cons_self a t)
    simp only [List.cons_append, List.takeWhile_cons_of_pos ha, List.cons.injEq, true_and]
    exact ih (fun b hb => h b (List.mem_cons_of_mem a hb))

theorem dropWhile_append_of_all (p : Char → Bool) : ∀ (xs ys : List Char),
    (∀ a ∈ xs, p a = true) → (xs ++ ys).dropWhile p = ys.dropWhile p := by
  intro xs ys h
  induction xs with
  | nil => simp
  | cons a t ih =>
    have ha : p a = true := h a (List.mem_cons_self a t)
    simp only [List.cons_append, List.dropWhile_cons_of_pos ha]
    exact ih (fun b hb => h b (List.mem_cons_of_mem a hb))

theorem dropWhile_head_false (p : Char → Bool) : ∀ (l a t), List.dropWhile p l = a :: t →
    p a = false := by
  intro l
  induction l with
  | nil => intro a t h; simp [List.dropWhile] at h
  | cons x l ih =>
    intro a t h
    by_cases hx : p x = true
    · rw [List.dropWhile_cons_of_pos hx] at h; exact ih a t h
    · rw [List.dropWhile_cons_of_neg hx] at h
      cases h
      exact Bool.eq_false_iff.2 hx

theorem pyStrip_ws_append (xs ys : List Char) (h : ∀ a ∈ xs, isPySpace a = true) :
    pyStrip (xs ++ ys) = pyStrip ys := by
  unfold pyStrip
  rw [dropWhile_append_of_all isPySpace xs ys h]

theorem eq_dropLast_concat_of_getLast? (a : Char) : ∀ (l : List Char),
    l.getLast? = some a → l = l.dropLast ++ [a] := by
  intro l
  induction l with
  | nil => intro h; simp at h
  | cons x l ih =>
    intro h
    cases l with
    | nil => simp only [List.getLast?_singleton, Option.some.injEq] at h; simp [h]
    | cons y t =>
      rw [List.getLast?_cons_cons] at h
      have := ih h
      calc x :: y :: t = x :: ((y :: t).dropLast ++ [a]) := by rw [← this]
        _ = (x :: y :: t).dropLast ++ [a] := by simp

theorem isPySpace_ne_btk (a : Char) (h : isPySpace a = true) : a ≠ btk := by
  simp only [isPySpace, Bool.or_eq_true, decide_eq_true_eq] at h
  rcases h with ((((h | h) | h) | h) | h) | h <;> (subst h; decide)

theorem isPySpace_ne_btk_b (a : Char) (h : isPySpace a = true) :
    (fun ch => decide (ch ≠ btk)) a = true := by
  simpa using isPySpace_ne_btk a h

theorem fence_core (ws2 g rest : List Char) (hw : ∀ a ∈ ws2, isPySpace a = true)
    (hg : g ≠ []) (hgb : g.all (fun ch => ch ≠ btk) = true) :
    tryFence ('\n' :: (ws2 ++ (g ++ '\n' :: (tbt ++ rest)))) = some (ws2 ++ g) := by
  have hbody : ∀ a ∈ ws2 ++ (g ++ ['\n']), (fun ch => decide (ch ≠ btk)) a = true := by
    intro a ha
    rcases List.mem_append.1 ha with h | h
    · exact isPySpace_ne_btk_b a (hw a h)
    · rcases List.mem_append.1 h with h | h
      · simp only [List.all_eq_true, decide_eq_true_eq] at hgb
        simpa using hgb a h
      · simp only [List.mem_singleton] at h
        subst h; decide
  have hX : ws2 ++ (g ++ '\n' :: (tbt ++ rest)) = (ws2 ++ (g ++ ['\n'])) ++ (tbt ++ rest) := by
    simp [List.append_assoc]
  have htw : List.takeWhile (fun ch => ch ≠ btk) (ws2 ++ (g ++ '\n' :: (tbt ++ rest)))
      = ws2 ++ (g ++ ['\n']) := by
    rw [hX, takeWhile_append_of_all _ _ _ hbody]
    have : List.takeWhile (fun ch => ch ≠ btk) (tbt ++ rest) = [] := by
      simp [tbt, List.takeWhile_cons_of_neg]
    rw [this, List.append_nil]
  have hdw : List.dropWhile (fun ch => ch ≠ btk) (ws2 ++ (g ++ '\n' :: (tbt ++ rest)))
      = tbt ++ rest := by
    rw [hX, dropWhile_append_of_all _ _ _ hbody]
    simp [tbt, List.dropWhile_cons_of_neg]
  have h1 : (List.takeWhile (fun ch => ch ≠ '\n')
      ('\n' :: (ws2 ++ (g ++ '\n' :: (tbt ++ rest))))) = [] := by
    simp [List.takeWhile_cons_of_neg]
  have h2 : (List.dropWhile (fun ch => ch ≠ '\n')
      ('\n' :: (ws2 ++ (g ++ '\n' :: (tbt ++ rest)))))
      = '\n' :: (ws2 ++ (g ++ '\n' :: (tbt ++ rest))) := by
    simp [List.dropWhile_cons_of_neg]
  have hlast : (ws2 ++ (g ++ ['\n'])).getLast? = some '\n' := by
    rw [show ws2 ++ (g ++ ['\n']) = (ws2 ++ g) ++ ['\n'] by simp [List.append_assoc]]
    exact List.getLast?_concat _
  have hlen : 2 ≤ (ws2 ++ (g ++ ['\n'])).length := by
    have : 1 ≤ g.length := List.length_pos.2 hg
    simp only [List.length_append, List.length_singleton]
    omega
  have hsw : listStartsWith (tbt ++ rest) tbt = true := listStartsWith_append _ _
  have hc : (ws2 ++ (g ++ ['\n'])).getLast? = some '\n' ∧ 2 ≤ (ws2 ++ (g ++ ['\n'])).length ∧
      listStartsWith (tbt ++ rest) tbt = true := ⟨hlast, hlen, hsw⟩
  unfold tryFence
  rw [h1, h2]
  simp only [List.all_nil, if_pos rfl]
  show fenceTail (ws2 ++ (g ++ '\n' :: (tbt ++ rest))) = some (ws2 ++ g)
  unfold fenceTail
  rw [htw, hdw, if_pos hc]
  congr 1
  rw [show ws2 ++ (g ++ ['\n']) = (ws2 ++ g) ++ ['\n'] by simp [List.append_assoc]]
  rw [List.dropLast_concat]

theorem fence_step (a : Char) (X : List Char) (ha : isPySpace a = true) (hn : a ≠ '\n') :
    tryFence (a :: X) = tryFence X := by
  have ht : List.takeWhile (fun ch => ch ≠ '\n') (a :: X)
      = a :: List.takeWhile (fun ch => ch ≠ '\n') X := by
    rw [List.takeWhile_cons_of_pos]; simpa using hn
  have hd : List.dropWhile (fun ch => ch ≠ '\n') (a :: X)
      = List.dropWhile (fun ch => ch ≠ '\n') X := by
    rw [List.dropWhile_cons_of_pos]; simpa using hn
  unfold tryFence
  rw [ht, hd, List.all_cons, ha, Bool.true_and]

theorem fence_sound : ∀ (w g rest : List Char), (∀ a ∈ w, isPySpace a = true) → g ≠ [] →
    g.all (fun ch => ch ≠ btk) = true →
    ∃ g0, tryFence (w ++ '\n' :: (g ++ '\n' :: (tbt ++ rest))) = some g0 ∧
      pyStrip g0 = pyStrip g := by
  intro w
  induction w with
  | nil =>
    intro g rest hw hg hgb
    refine ⟨g, ?_, rfl⟩
    simpa using fence_core [] g rest (by simp) hg hgb
  | cons a w ih =>
    intro g rest hw hg hgb
    have ha : isPySpace a = true := hw a (List.mem_cons_self a w)
    have hw' : ∀ b ∈ w, isPySpace b = true := fun b hb => hw b (List.mem_cons_of_mem a hb)
    by_cases hn : a = '\n'
    · subst hn
      refine ⟨(w ++ ['\n']) ++ g, ?_, ?_⟩
      · have hshape : w ++ '\n' :: (g ++ '\n' :: (tbt ++ rest))
            = (w ++ ['\n']) ++ (g ++ '\n' :: (tbt ++ rest)) := by
          simp [List.append_assoc]
        rw [List.cons_append, hshape]
        exact fence_core (w ++ ['\n']) g rest
          (by
            intro b hb
            rcases List.mem_append.1 hb with h | h
            · exact hw' b h
            · simp only [List.mem_singleton] at h; subst h; decide)
          hg hgb
      · exact pyStrip_ws_append (w ++ ['\n']) g
          (by
            intro b hb
            rcases List.mem_append.1 hb with h | h
            · exact hw' b h
            · simp only [List.mem_singleton] at h; subst h; decide)
    · rw [List.cons_append, fence_step a _ ha hn]
      exact ih g rest hw' hg hgb

theorem fence_complete (r g0 : List Char) (h : tryFence r = some g0) :
    ∃ w g rest, r = w ++ '\n' :: (g ++ '\n' :: (tbt ++ rest)) ∧
      (∀ a ∈ w, isPySpace a = true) ∧ g ≠ [] ∧ g.all (fun ch => ch ≠ btk) = true ∧
      g = g0 := by
  unfold tryFence at h
  by_cases hall : (List.takeWhile (fun ch => ch ≠ '\n') r).all isPySpace = true
  case neg => rw [if_neg (by simpa using hall)] at h; cases h
  rw [if_pos (by simpa using hall)] at h
  cases e : List.dropWhile (fun ch => ch ≠ '\n') r with
  | nil => rw [e] at h; cases h
  | cons c1 t =>
    rw [e] at h
    replace h : fenceTail t = some g0 := h
    unfold fenceTail at h
    have hc1 : c1 = '\n' := by
      have := dropWhile_head_false (fun ch => ch ≠ '\n') r c1 t e
      simpa using this
    subst hc1
    by_cases hcond : (List.takeWhile (fun ch => ch ≠ btk) t).getLast? = some '\n' ∧
        2 ≤ (List.takeWhile (fun ch => ch ≠ btk) t).length ∧
        listStartsWith (List.dropWhile (fun ch => ch ≠ btk) t) tbt = true
    case neg => rw [if_neg hcond] at h; cases h
    rw [if_pos hcond] at h
    obtain ⟨hlast, hlen, hsw⟩ := hcond
    obtain ⟨rest', hr'⟩ := (listStartsWith_iff tbt _).1 hsw
    have hbody : List.takeWhile (fun ch => ch ≠ btk) t
        = (List.takeWhile (fun ch => ch ≠ btk) t).dropLast ++ ['\n'] :=
      eq_dropLast_concat_of_getLast? '\n' _ hlast
    have hg0 : (List.takeWhile (fun ch => ch ≠ btk) t).dropLast = g0 := by
      simpa using h
    refine ⟨List.takeWhile (fun ch => ch ≠ '\n') r, g0, rest', ?_, ?_, ?_, ?_, rfl⟩
    · have ht : t = List.takeWhile (fun ch => ch ≠ btk) t ++
          List.dropWhile (fun ch => ch ≠ btk) t := (List.takeWhile_append_dropWhile _ _).symm
      calc r = List.takeWhile (fun ch => ch ≠ '\n') r ++
            List.dropWhile (fun ch => ch ≠ '\n') r := (List.takeWhile_append_dropWhile _ _).symm
        _ = List.takeWhile (fun ch => ch ≠ '\n') r ++ '\n' :: t := by rw [e]
        _ = List.takeWhile (fun ch => ch ≠ '\n') r ++ '\n' :: (g0 ++ '\n' :: (tbt ++ rest')) := by
            rw [ht, hr', hbody, hg0]; simp [List.append_assoc]
    · intro a ha
      have := List.all_eq_true.1 hall a ha
      simpa using this
    · intro hnil
      rw [hg0] at hbody
      rw [hnil] at hbody
      rw [hbody] at hlen
      simp at hlen
    · rw [← hg0]
      simp only [List.all_eq_true]
      intro a ha
      have ha' : a ∈ List.takeWhile (fun ch => ch ≠ btk) t :=
        List.dropLast_sublist _ |>.subset ha
      have := List.mem_takeWhile_imp ha'
      simpa using this

theorem codeM_some_matchAt (c l : List Char) (i : ℕ) (g0 : List Char)
    (h : codeM l (List.drop i c) = some g0) : CodeMatchAt c l i := by
  unfold codeM at h
  by_cases hsw : listStartsWith (List.drop i c) (tbt ++ l) = true
  case neg => rw [if_neg (by simpa using hsw)] at h; cases h
  rw [if_pos (by simpa using hsw)] at h
  obtain ⟨u, hu⟩ := (listStartsWith_iff _ _).1 hsw
  rw [hu, List.drop_left] at h
  obtain ⟨w, g, rest, hdec, hw, hg, hgb, -⟩ := fence_complete u g0 h
  refine ⟨w, g, rest, by rw [hu, hdec], ?_, hg, hgb⟩
  simp only [List.all_eq_true]
  exact fun a ha => hw a ha

theorem codeM_matchAt_some (c l : List Char) (i : ℕ) (w g rest : List Char)
    (hdec : List.drop i c = (tbt ++ l) ++ (w ++ '\n' :: (g ++ '\n' :: (tbt ++ rest))))
    (hw : w.all isPySpace = true) (hg : g ≠ []) (hgb : g.all (fun ch => ch ≠ btk) = true) :
    ∃ g0, codeM l (List.drop i c) = some g0 ∧ pyStrip g0 = pyStrip g := by
  obtain ⟨g0, hf, hstrip⟩ :=
    fence_sound w g rest (fun a ha => List.all_eq_true.1 hw a ha) hg hgb
  refine ⟨g0, ?_, hstrip⟩
  unfold codeM
  rw [hdec, if_pos (by simpa using listStartsWith_append (tbt ++ l) _), List.drop_left]
  exact hf

theorem sectionM_drop (c name : List Char) (i : ℕ) :
    sectionM name (List.drop i c) =
      (if sectionHitB c name i = true then
        some (List.takeWhile (fun ch => ch ≠ '#') (List.drop (i + (name.length + 2)) c))
      else none) := by
  unfold sectionM sectionHitB
  rw [List.drop_drop]
  by_cases h1 : listStartsWith (List.drop i c) ('#' :: ' ' :: name) = true
  · rw [if_pos (by simpa using h1)]
    by_cases h2 : sectionCondB (List.drop (i + (name.length + 2)) c) = true
    · rw [if_pos (by simpa using h2), if_pos (by simp [h1, h2])]
    · rw [if_neg (by simpa using h2), if_neg (by simp [h1, h2])]
  · rw [if_neg (by simpa using h1), if_neg (by simp [h1])]

theorem uniqueOcc_of_bounded (c pat : List Char) (i : ℕ) (hp : pat ≠ [])
    (hb : ∀ j, j < c.length + 1 → listStartsWith (List.drop j c) pat = true → j = i) :
    ∀ j, listStartsWith (List.drop j c) pat = true → j = i := by
  intro j hj
  by_cases hlt : j < c.length + 1
  · exact hb j hlt hj
  · exfalso
    rw [listStartsWith_long_false pat hp c j (by omega)] at hj
    cases hj

theorem idM_hex (pat s g : List Char) (h : idM pat s = some g) :
    g ≠ [] ∧ g.all isHexLower = true := by
  unfold idM at h
  by_cases h1 : listStartsWith s pat = true
  case neg => rw [if_neg (by simpa using h1)] at h; cases h
  rw [if_pos (by simpa using h1)] at h
  by_cases h2 : List.takeWhile isHexLower (List.drop pat.length s) = []
  · rw [if_pos h2] at h; cases h
  · rw [if_neg h2] at h
    have hg : List.takeWhile isHexLower (List.drop pat.length s) = g := by
      injection h
    subst hg
    refine ⟨h2, ?_⟩
    simp only [List.all_eq_true]
    exact fun a ha => List.mem_takeWhile_imp ha

theorem scanFirst_idM_hex (pat s g : List Char) (h : scanFirst (idM pat) s = some g) :
    g ≠ [] ∧ g.all isHexLower = true :=
  scanFirst_prop (idM pat) (fun g => g ≠ [] ∧ g.all isHexLower = true)
    (fun s' g' h' => idM_hex pat s' g' h') s g h

theorem string_mk_ne_empty (g : List Char) (hg : g ≠ []) : (⟨g⟩ : String) ≠ "" := by
  intro h
  apply hg
  have : (⟨g⟩ : String).data = ("" : String).data := by rw [h]
  simpa using this

theorem searchAddedNode_hex (out s : String) (h : searchAddedNode out = some s) :
    s ≠ "" ∧ s.data.all isHexLower = true := by
  unfold searchAddedNode at h
  rw [Option.map_eq_some'] at h
  obtain ⟨g, hg, hs⟩ := h
  obtain ⟨h1, h2⟩ := scanFirst_idM_hex _ _ _ hg
  subst hs
  exact ⟨string_mk_ne_empty g h1, h2⟩

theorem searchNodeId_hex (out s : String) (h : searchNodeId out = some s) :
    s ≠ "" ∧ s.data.all isHexLower = true := by
  unfold searchNodeId at h
  rw [Option.map_eq_some'] at h
  obtain ⟨g, hg, hs⟩ := h
  obtain ⟨h1, h2⟩ := scanFirst_idM_hex _ _ _ hg
  subst hs
  exact ⟨string_mk_ne_empty g h1, h2⟩

theorem store_in_memex_spec (env : StoreEnv) (st : AgentState) (c d : String) :
    (∃ e, store_in_memex env st c d = (Except.error e, ⟨st.node_map, false⟩)) ∨
    (∃ id, store_in_memex env st c d = (Except.ok id, ⟨updateA st.node_map d id, false⟩) ∧
      id ≠ "" ∧ id.data.all isHexLower = true) := by
  by_cases h1 : (env.add c).returncode = 0
  case neg =>
    left
    exact ⟨"Failed to add to memex: " ++ (env.add c).stderr,
      by simp [store_in_memex, store_in_memex_body, h1]⟩
  cases hadd : searchAddedNode (env.add c).stdout with
  | some id =>
    right
    refine ⟨id, by simp [store_in_memex, store_in_memex_body, h1, hadd], ?_⟩
    exact searchAddedNode_hex _ _ hadd
  | none =>
    by_cases h2 : env.status.returncode = 0
    case neg =>
      left
      exact ⟨"No Node ID found in output",
        by simp [store_in_memex, store_in_memex_body, h1, hadd, h2]⟩
    cases hst : searchNodeId env.status.stdout with
    | some id =>
      right
      refine ⟨id, by simp [store_in_memex, store_in_memex_body, h1, hadd, h2, hst], ?_⟩
      exact searchNodeId_hex _ _ hst
    | none =>
      left
      exact ⟨"No Node ID found in output",
        by simp [store_in_memex, store_in_memex_body, h1, hadd, h2, hst]⟩

theorem lookupA_updateA_self : ∀ (mp : List (String × String)) (k v : String),
    lookupA (updateA mp k v) k = some v := by
  intro mp k v
  induction mp with
  | nil => simp [updateA, lookupA]
  | cons p t ih =>
    obtain ⟨k0, v0⟩ := p
    by_cases h : k0 = k
    · simp [updateA, lookupA, h]
    · simp [updateA, lookupA, h, ih]

theorem lookupA_updateA_isSome : ∀ (mp : List (String × String)) (k v d : String),
    (lookupA mp d).isSome = true → (lookupA (updateA mp k v) d).isSome = true := by
  intro mp k v d
  induction mp with
  | nil => intro h; simp [lookupA] at h
  | cons p t ih =>
    obtain ⟨k0, v0⟩ := p
    intro h
    by_cases hk : k0 = k
    · subst hk
      by_cases hd : k0 = d
      · subst hd
        simp [updateA, lookupA]
      · simp only [lookupA, if_neg hd] at h
        simp [updateA, lookupA, hd, h]
    · by_cases hd : k0 = d
      · subst hd
        simp [updateA, lookupA, hk]
      · simp only [lookupA, if_neg hd] at h
        simp [updateA, lookupA, hk, hd, ih h]

theorem NodeMapOK_updateA : ∀ (mp : List (String × String)) (k v : String),
    NodeMapOK mp → v ≠ "" → v.data.all isHexLower = true → NodeMapOK (updateA mp k v) := by
  intro mp k v
  induction mp with
  | nil =>
    intro _ hv1 hv2
    intro p hp
    simp only [updateA, List.mem_singleton] at hp
    subst hp
    exact ⟨hv1, hv2⟩
  | cons q t ih =>
    obtain ⟨k0, v0⟩ := q
    intro hmp hv1 hv2
    by_cases hk : k0 = k
    · intro p hp
      rw [updateA, if_pos hk] at hp
      rcases List.mem_cons.1 hp with hh | hh
      · subst hh; exact ⟨hv1, hv2⟩
      · exact hmp p (List.mem_cons_of_mem _ hh)
    · intro p hp
      rw [updateA, if_neg hk] at hp
      rcases List.mem_cons.1 hp with hh | hh
      · subst hh; exact hmp (k0, v0) (List.mem_cons_self _ _)
      · exact ih (fun q hq => hmp q (List.mem_cons_of_mem _ hq)) hv1 hv2 p hh

theorem store_preserves_ok (env : StoreEnv) (st : AgentState) (c d : String)
    (h : NodeMapOK st.node_map) :
    NodeMapOK ((store_in_memex env st c d).2).node_map := by
  rcases store_in_memex_spec env st c d with ⟨e, he⟩ | ⟨id, hid, h1, h2⟩
  · rw [he]; exact h
  · rw [hid]; exact NodeMapOK_updateA st.node_map d id h h1 h2

theorem runOps_ok (env : StoreEnv) : ∀ (ops : List AgentOp) (st : AgentState),
    NodeMapOK st.node_map → NodeMapOK (runOps env st ops).node_map := by
  intro ops
  induction ops with
  | nil => intro st h; exact h
  | cons op rest ih =>
    intro st h
    cases op with
    | resolve d => exact ih st h
    | store c d =>
      have hstep := store_preserves_ok env st c d h
      rcases hspec : store_in_memex env st c d with ⟨r, st1⟩
      rw [hspec] at hstep
      cases r with
      | ok id =>
        simp only [runOps, hspec]
        exact ih st1 hstep
      | error e =>
        simp only [runOps, hspec]
        exact hstep

theorem get_memex_content_eq (env : StoreEnv) (st : AgentState) (desc id : String)
    (h : lookupA st.node_map desc = some id) :
    get_memex_content env st desc =
      if (env.cat id).returncode = 0 then (env.cat id).stdout else "" := by
  unfold get_memex_content
  rw [h]

theorem sectionHitB_nil (name : List Char) (i : ℕ) : sectionHitB [] name i = false := by
  unfold sectionHitB
  rw [List.drop_nil, listStartsWith_nil_false, Bool.false_and]

/-
Claim theorems.
-/

/-- C1: the claim says `_extract_json` returns the exact outermost balanced
object even when objects are nested.  On a section holding the nested
object `\x7b "a": \x7b "b": 1 \x7d \x7d` (the shape of the program's own
"Frontend Dependencies" template), the code instead returns the prefix cut
at the first closing brace — a truncated, unbalanced literal. -/
theorem extract_json_truncates_nested :
    extract_json "# Deps\n\x7b \"a\": \x7b \"b\": 1 \x7d \x7d\n" "Deps"
      = "\x7b \"a\": \x7b \"b\": 1 \x7d" ∧
    ("\x7b \"a\": \x7b \"b\": 1 \x7d" : String) ≠ "\x7b \"a\": \x7b \"b\": 1 \x7d \x7d" :=
  ⟨by decide, by decide⟩

/-- C2 counterexample: the claim says the heading must begin a line and the
captured text runs to the next heading marker of the same kind.  On
`"x# Foo\nbody"` no line begins with `# Foo`, so the claim (formalised by
`extract_section_spec`) yields `""`, yet the code matches the heading in
the middle of the first line and returns `"body"`. -/
theorem extract_section_midline_cex :
    extract_section "x# Foo\nbody" "Foo" = "body" ∧
    extract_section_spec "x# Foo\nbody" "Foo" = "" ∧
    extract_section "x# Foo\nbody" "Foo" ≠ extract_section_spec "x# Foo\nbody" "Foo" :=
  ⟨by decide, by decide, by decide⟩

/-- C2 amended: `_extract_section` matches the leftmost occurrence of
`"# " ++ name` anywhere in the content (not only at line starts) that is
followed by a whitespace character and one further non-`#` character, and
returns the following maximal run of non-`#` characters (stopping at any
`#`, not only at heading markers), trimmed; if no position matches it
returns empty text. -/
theorem extract_section_leftmost_characterization :
    (∀ (content section_name : String) (i : ℕ),
      sectionHitB content.data section_name.data i = true →
      (∀ j, j < i → sectionHitB content.data section_name.data j = false) →
      extract_section content section_name =
        ⟨pyStrip (List.takeWhile (fun ch => ch ≠ '#')
          (List.drop (i + (section_name.data.length + 2)) content.data))⟩) ∧
    (∀ (content section_name : String),
      (∀ i, sectionHitB content.data section_name.data i = false) →
      extract_section content section_name = "") := by
  constructor
  · intro c n i hi hlt
    have hscan : scanFirst (sectionM n.data) c.data =
        some (List.takeWhile (fun ch => ch ≠ '#')
          (List.drop (i + (n.data.length + 2)) c.data)) := by
      apply scanFirst_some_of_first (sectionM n.data) i c.data
      · intro j hj
        rw [sectionM_drop, if_neg (by simp [hlt j hj])]
      · rw [sectionM_drop, if_pos hi]
    unfold extract_section
    rw [hscan]
  · intro c n hall
    have hscan : scanFirst (sectionM n.data) c.data = none := by
      apply scanFirst_none_of_all
      intro i
      rw [sectionM_drop, if_neg (by simp [hall i])]
    unfold extract_section
    rw [hscan]

/-- C2 witness: the characterization applied at position 0 of a concrete
content, and to a content with no match. -/
theorem extract_section_leftmost_characterization_witness :
    extract_section "# A\nb#cd" "A" = "b" ∧ extract_section "" "A" = "" := by
  constructor
  · have h := extract_section_leftmost_characterization.1 "# A\nb#cd" "A" 0 (by decide)
      (fun j hj => absurd hj (Nat.not_lt_zero j))
    rw [h]
    decide
  · exact extract_section_leftmost_characterization.2 "" "A"
      (fun i => sectionHitB_nil "A".data i)

/-- C5: on a fresh registry, resolving a never-stored description silently
returns empty text for every store oracle — the code never raises the
`UnknownDescriptionError` the claim (and spec §4.3) requires. -/
theorem resolve_unknown_returns_empty (env : StoreEnv) :
    get_memex_content env agentInit "project_plan" = "" := rfl

/-- C7: the staging file is removed on every exit path of
`_store_in_memex` — success, non-zero exit of the add command, or no id
pattern found — for every store oracle and starting state. -/
theorem staging_file_always_removed (env : StoreEnv) (st : AgentState)
    (content description : String) :
    ((store_in_memex env st content description).2).tempExists = false := rfl

/-- C4 counterexample: storing under description `"d"` twice in one run
does not fail — the second call returns `Except.ok` with the new id and
silently overwrites the recorded entry (`aa` becomes `bb`), against the
claim that it fails with `DuplicateDescriptionError`. -/
theorem store_duplicate_overwrites_cex :
    lookupA ((store_in_memex envC4 agentInit "A" "d").2).node_map "d" = some "aa" ∧
    (store_in_memex envC4 ((store_in_memex envC4 agentInit "A" "d").2) "B" "d").1
      = Except.ok "bb" ∧
    lookupA ((store_in_memex envC4 ((store_in_memex envC4 agentInit "A" "d").2) "B" "d").2).node_map
      "d" = some "bb" :=
  ⟨by decide, rfl, by decide⟩

/-- C4 amended: a second `_store_in_memex` call under an already-recorded
description does not raise a duplicate error; whenever it returns a node
id it silently overwrites the existing entry with that id. -/
theorem store_duplicate_overwrites (env : StoreEnv) (st : AgentState) (c d id0 id : String)
    (_h0 : lookupA st.node_map d = some id0)
    (h : (store_in_memex env st c d).1 = Except.ok id) :
    lookupA ((store_in_memex env st c d).2).node_map d = some id := by
  rcases store_in_memex_spec env st c d with ⟨e, he⟩ | ⟨id1, hid, -, -⟩
  · rw [he] at h; cases h
  · rw [hid] at h
    have hi : id1 = id := by simpa using h
    subst hi
    rw [hid]
    exact lookupA_updateA_self st.node_map d id1

/-- C4 witness: the amended overwrite behaviour at a concrete state with
`"d"` already recorded. -/
theorem store_duplicate_overwrites_witness :
    lookupA ((store_in_memex envC4 (⟨[("d", "aa")], false⟩ : AgentState) "B" "d").2).node_map "d"
      = some "bb" :=
  store_duplicate_overwrites envC4 ⟨[("d", "aa")], false⟩ "B" "d" "aa" "bb" (by decide) rfl

/-- C6 counterexample: with the read command exiting non-zero (and printing
`"S"`), `_get_memex_content` returns the ordinary value `""` — it does not
raise `StoreInvocationError` (formalised by `fetch_spec`, which does err
here) and does not return the command's stdout. -/
theorem fetch_nonzero_exit_cex :
    get_memex_content envC6 (⟨[("d", "ab")], false⟩ : AgentState) "d" = "" ∧
    fetch_spec envC6 "ab" = Except.error "StoreInvocationError" ∧
    get_memex_content envC6 (⟨[("d", "ab")], false⟩ : AgentState) "d" ≠ (envC6.cat "ab").stdout :=
  ⟨by decide, rfl, by decide⟩

/-- C6 amended: for a stored description, the fetch path of
`_get_memex_content` returns the read command's stdout verbatim on exit
zero, and returns empty text (instead of raising) on non-zero exit. -/
theorem fetch_behavior_amended (env : StoreEnv) (st : AgentState) (desc id : String)
    (h : lookupA st.node_map desc = some id) :
    ((env.cat id).returncode = 0 → get_memex_content env st desc = (env.cat id).stdout) ∧
    ((env.cat id).returncode ≠ 0 → get_memex_content env st desc = "") := by
  constructor
  · intro hrc
    rw [get_memex_content_eq env st desc id h, if_pos hrc]
  · intro hrc
    rw [get_memex_content_eq env st desc id h, if_neg hrc]

/-- C6 witness: both branches of the amended fetch behaviour at concrete
oracles. -/
theorem fetch_behavior_amended_witness :
    get_memex_content envC6b (⟨[("d", "ab")], false⟩ : AgentState) "d" = "S" ∧
    get_memex_content envC6 (⟨[("d", "ab")], false⟩ : AgentState) "d" = "" := by
  constructor
  · exact (fetch_behavior_amended envC6b ⟨[("d", "ab")], false⟩ "d" "ab" (by decide)).1
      (by decide)
  · exact (fetch_behavior_amended envC6 ⟨[("d", "ab")], false⟩ "d" "ab" (by decide)).2
      (by decide)

/-- C8: round-trip — if storing content under a description succeeds with
id `id`, and the store echoes that content verbatim for `id` (exit zero,
stdout byte-identical), then resolving the same description returns the
stored content byte-identically. -/
theorem store_resolve_roundtrip (env : StoreEnv) (st : AgentState) (content desc id : String)
    (h : (store_in_memex env st content desc).1 = Except.ok id)
    (hrc : (env.cat id).returncode = 0) (hout : (env.cat id).stdout = content) :
    get_memex_content env ((store_in_memex env st content desc).2) desc = content := by
  rcases store_in_memex_spec env st content desc with ⟨e, he⟩ | ⟨id1, hid, -, -⟩
  · rw [he] at h; cases h
  · rw [hid] at h
    have hi : id1 = id := by simpa using h
    subst hi
    rw [hid]
    rw [get_memex_content_eq env ⟨updateA st.node_map desc id1, false⟩ desc id1
      (lookupA_updateA_self st.node_map desc id1)]
    rw [if_pos hrc]
    exact hout

/-- C8 witness: the round-trip at a concrete echoing oracle. -/
theorem store_resolve_roundtrip_witness :
    get_memex_content envC8 ((store_in_memex envC8 agentInit "hello" "cfg").2) "cfg" = "hello" :=
  store_resolve_roundtrip envC8 agentInit "hello" "cfg" "ab" rfl (by decide) (by decide)

/-- C10: starting from the empty map created at construction, after any
sequence of store/resolve operations every value recorded in `node_map` is
a nonempty lowercase-hex string, and a single store operation never
removes a key — recorded descriptions only grow within a run. -/
theorem node_map_invariant :
    (∀ (env : StoreEnv) (ops : List AgentOp),
      NodeMapOK (runOps env agentInit ops).node_map) ∧
    (∀ (env : StoreEnv) (st : AgentState) (content desc d : String),
      (lookupA st.node_map d).isSome = true →
      (lookupA ((store_in_memex env st content desc).2).node_map d).isSome = true) := by
  constructor
  · intro env ops
    exact runOps_ok env ops agentInit (fun p hp => absurd hp (List.not_mem_nil p))
  · intro env st content desc d h
    rcases store_in_memex_spec env st content desc with ⟨e, he⟩ | ⟨id, hid, -, -⟩
    · rw [he]; exact h
    · rw [hid]; exact lookupA_updateA_isSome st.node_map desc id d h

/-- C10 witness: the invariant after a concrete run, and key preservation
across a concrete store. -/
theorem node_map_invariant_witness :
    NodeMapOK (runOps envC10 agentInit [AgentOp.store "hello" "cfg"]).node_map ∧
    (lookupA ((store_in_memex envC10 (⟨[("k", "aa")], false⟩ : AgentState) "x" "cfg").2).node_map
      "k").isSome = true := by
  constructor
  · exact node_map_invariant.1 envC10 [AgentOp.store "hello" "cfg"]
  · exact node_map_invariant.2 envC10 ⟨[("k", "aa")], false⟩ "x" "cfg" "k" (by decide)

/-- C3 counterexample: the content holds one well-delimited fenced `py`
block whose body is `a = `1``.  The claim (formalised by
`extract_code_spec`) says the text strictly between the fences, trimmed,
is returned; the code instead returns the whole content unchanged, because
its body pattern cannot cross the backticks in the body. -/
theorem extract_code_wellformed_block_cex :
    extract_code "```py\na = `1`\n```" "py" = "```py\na = `1`\n```" ∧
    extract_code_spec "```py\na = `1`\n```" "py" = "a = `1`" ∧
    extract_code "```py\na = `1`\n```" "py" ≠ extract_code_spec "```py\na = `1`\n```" "py" :=
  ⟨by decide, by decide, by decide⟩

/-- C3 amended: when no position of the content carries a pattern-matching
fenced block for the tag — opening fence, whitespace, newline, a nonempty
backtick-free body, newline, closing fence (this covers the no-fence and
opened-but-never-closed cases) — `_extract_code` returns the entire
content unchanged; when such a block exists at a leftmost position, it
returns the text strictly between the fences, trimmed. -/
theorem extract_code_characterization :
    (∀ (content language : String),
      (∀ i, ¬ CodeMatchAt content.data language.data i) →
      extract_code content language = content) ∧
    (∀ (content language : String) (i : ℕ) (w g rest : List Char),
      List.drop i content.data
        = (tbt ++ language.data) ++ (w ++ '\n' :: (g ++ '\n' :: (tbt ++ rest))) →
      w.all isPySpace = true → g ≠ [] → g.all (fun ch => ch ≠ btk) = true →
      (∀ j, j < i → ¬ CodeMatchAt content.data language.data j) →
      extract_code content language = ⟨pyStrip g⟩) := by
  constructor
  · intro c l hall
    have hscan : scanFirst (codeM l.data) c.data = none := by
      apply scanFirst_none_of_all
      intro i
      cases hm : codeM l.data (List.drop i c.data) with
      | none => rfl
      | some g0 => exact absurd (codeM_some_matchAt _ _ _ _ hm) (hall i)
    unfold extract_code
    rw [hscan]
  · intro c l i w g rest hdec hw hg hgb hlt
    obtain ⟨g0, hm, hstrip⟩ := codeM_matchAt_some c.data l.data i w g rest hdec hw hg hgb
    have hscan : scanFirst (codeM l.data) c.data = some g0 := by
      apply scanFirst_some_of_first (codeM l.data) i c.data g0 ?_ hm
      intro j hj
      cases hm2 : codeM l.data (List.drop j c.data) with
      | none => rfl
      | some g1 => exact absurd (codeM_some_matchAt _ _ _ _ hm2) (hlt j hj)
    unfold extract_code
    rw [hscan]
    show (⟨pyStrip g0⟩ : String) = ⟨pyStrip g⟩
    rw [hstrip]

/-- C3 witness: the fallback on empty content (no block exists), and the
extraction of a concrete well-formed block at position 0. -/
theorem extract_code_characterization_witness :
    extract_code "" "py" = "" ∧ extract_code "```py\nhello\n```" "py" = "hello" := by
  constructor
  · exact extract_code_characterization.1 "" "py" (fun i h => by
      obtain ⟨w, g, rest, hdec, -, -, -⟩ := h
      rw [show ("" : String).data = ([] : List Char) from rfl, List.drop_nil] at hdec
      exact absurd hdec (by simp [tbt]))
  · have h := extract_code_characterization.2 "```py\nhello\n```" "py" 0 [] "hello".data []
      (by decide) (by decide) (by decide) (by decide)
      (fun j hj => absurd hj (Nat.not_lt_zero j))
    rw [h]
    decide

/-- C9 counterexample: the first fenced `py` block's body `a`b` contains a
backtick, and the claim says the whole input is then returned; but the
scan just moves on and returns the body `"ok"` of the later clean fence —
not the entire content. -/
theorem extract_code_backtick_skips_cex :
    firstBlockBody "```py\na`b\n```\n```py\nok\n```" "py" = some "\na`b\n" ∧
    extract_code "```py\na`b\n```\n```py\nok\n```" "py" = "ok" ∧
    extract_code "```py\na`b\n```\n```py\nok\n```" "py" ≠ "```py\na`b\n```\n```py\nok\n```" :=
  ⟨by decide, by decide, by decide⟩

/-- C9 amended: when the opening fence for the tag occurs at exactly one
position of the content and the first backtick after it does not start a
closing triple backtick — in particular whenever the block's body contains
a backtick character — the block-body pattern (which excludes backticks
entirely) cannot match, and `_extract_code` returns the entire input
content unchanged. -/
theorem extract_code_backtick_body_fallback (content language : String) (pre u : List Char)
    (hdec : content.data = pre ++ ((tbt ++ language.data) ++ u))
    (huniq : ∀ j, listStartsWith (List.drop j content.data) (tbt ++ language.data) = true →
      j = pre.length)
    (hbt : listStartsWith (List.dropWhile (fun ch => ch ≠ btk) u) tbt = false) :
    extract_code content language = content := by
  have hscan : scanFirst (codeM language.data) content.data = none := by
    apply scanFirst_none_of_all
    intro i
    unfold codeM
    by_cases hsw : listStartsWith (List.drop i content.data) (tbt ++ language.data) = true
    case neg => rw [if_neg (by simpa using hsw)]
    rw [if_pos (by simpa using hsw)]
    have hi : i = pre.length := huniq i hsw
    subst hi
    have hdrop : List.drop pre.length content.data = (tbt ++ language.data) ++ u := by
      rw [hdec]
      exact List.drop_left pre _
    rw [hdrop, List.drop_left]
    show tryFence u = none
    unfold tryFence
    by_cases hws : (List.takeWhile (fun ch => ch ≠ '\n') u).all isPySpace = true
    case neg => rw [if_neg (by simpa using hws)]
    rw [if_pos (by simpa using hws)]
    cases e : List.dropWhile (fun ch => ch ≠ '\n') u with
    | nil => rfl
    | cons c1 t =>
      show fenceTail t = none
      have hc1 : c1 = '\n' := by
        have := dropWhile_head_false (fun ch => ch ≠ '\n') u c1 t e
        simpa using this
      subst hc1
      have hu : u = (List.takeWhile (fun ch => ch ≠ '\n') u ++ ['\n']) ++ t := by
        calc u = List.takeWhile (fun ch => ch ≠ '\n') u ++
              List.dropWhile (fun ch => ch ≠ '\n') u :=
            (List.takeWhile_append_dropWhile _ _).symm
          _ = List.takeWhile (fun ch => ch ≠ '\n') u ++ '\n' :: t := by rw [e]
          _ = (List.takeWhile (fun ch => ch ≠ '\n') u ++ ['\n']) ++ t := by
            simp [List.append_assoc]
      have hall : ∀ a ∈ List.takeWhile (fun ch => ch ≠ '\n') u ++ ['\n'],
          (fun ch => decide (ch ≠ btk)) a = true := by
        intro a ha
        rcases List.mem_append.1 ha with h | h
        · exact isPySpace_ne_btk_b a (List.all_eq_true.1 hws a h)
        · simp only [List.mem_singleton] at h
          subst h; decide
      have hdweq : List.dropWhile (fun ch => ch ≠ btk) u
          = List.dropWhile (fun ch => ch ≠ btk) t := by
        conv_lhs => rw [hu]
        rw [dropWhile_append_of_all _ _ _ hall]
      unfold fenceTail
      rw [if_neg]
      rintro ⟨-, -, h3⟩
      rw [← hdweq, hbt] at h3
      cases h3
  unfold extract_code
  rw [hscan]

/-- C9 witness: the fallback on a concrete single-fence content whose body
holds a lone backtick. -/
theorem extract_code_backtick_body_fallback_witness :
    extract_code "```py\nx`y\n```" "py" = "```py\nx`y\n```" := by
  apply extract_code_backtick_body_fallback "```py\nx`y\n```" "py" [] ("\nx`y\n```".data)
  · decide
  · exact uniqueOcc_of_bounded ("```py\nx`y\n```".data) (tbt ++ "py".data) 0
      (by decide) (by decide)
  · decide
